import Mathlib

/-!
# Verification of the pull-logs retrieval operator

Shallow embedding of `src/rust/worker/src/execution/operators/pull_log.rs`
(`PullLogsOperator::run`, lines 93-136) together with a model of the
`Log` trait's `read` operation, and proofs of the pagination, capping,
error-propagation, ordering and termination properties of the operator.

Modelling conventions:
* Rust `Result<T, E>` is `RResult T E`.
* `i64` / `i32` values are `Int`; the single place where machine-width
  conversion matters is `input.num_records.unwrap() as usize`
  (lines 127 and 132-133), modelled exactly by `usizeOfI32`
  (sign-extension to 64 bits reinterpreted as unsigned).
* The `Log` client is taken by `&mut self` in Rust, so a read is modelled as
  a state transformer on the client state `σ` (`ReadFn`).
* The Rust `loop` is modelled with explicit fuel: `none` means the loop was
  still running when the fuel ran out (i.e. the code has not terminated
  within that many iterations).
* As ghost instrumentation the loop also records the trace of read calls it
  issued, as the list of `(offset passed to read, result returned)` pairs in
  call order.  The accumulated result and control flow are exactly those of
  the source; the trace is only observed, never consulted.
-/

/-- Rust's `Result<T, E>`; `PullLogsResult = Result<PullLogsOutput, PullLogsError>`. -/
inductive RResult (α : Type) (ε : Type) where
  | ok (val : α)
  | err (e : ε)
  deriving DecidableEq

/-- A log entry as the log service reports it: `log_id` is the log-assigned
monotonic position and `log_id_ts` the log-assigned timestamp used for
boundary filtering (spec §3; the wrapped change record is irrelevant to the
operator, which never inspects entries, so it is omitted). -/
structure LogRecord where
  log_id : Int
  log_id_ts : Int
  deriving DecidableEq

/-- Stand-in for the opaque `PullLogsError` the log client can fail with; the
operator passes it through unchanged and never inspects it. -/
inductive PullLogsError where
  | readFailure
  deriving DecidableEq

/-- The `Log` trait's single operation,
`read(&mut self, collection_id, offset, batch_size, end_timestamp)`:
`&mut self` is modelled by explicit state passing on the client state `σ`;
the entry type `α` is abstract because the operator never inspects entries. -/
def ReadFn (σ α ε : Type) : Type :=
  σ → String → Int → Int → Option Int → RResult (List α) ε × σ

/-- `PullLogsInput` (lines 31-38).  `collection_id` is kept as the string the
operator passes to `read` (the code calls `.to_string()` on the `Uuid`). -/
structure PullLogsInput where
  collection_id : String
  offset : Int
  batch_size : Int
  num_records : Option Int
  end_timestamp : Option Int

/-- `PullLogsOperator` (lines 10-13): it owns nothing but the log client. -/
structure PullLogsOperator (σ : Type) where
  client : σ

/-- Rust `i32 as usize` on a 64-bit target: sign-extend, then reinterpret as
unsigned, i.e. the representative of `k` modulo `2 ^ 64`. -/
def usizeOfI32 (k : Int) : Nat := (k % 2 ^ 64).toNat

/-- Lines 126-128: `input.num_records.is_some() &&
num_records_read >= input.num_records.unwrap() as usize`. -/
def capReached (num_records : Option Int) (num_records_read : Nat) : Bool :=
  match num_records with
  | some k => decide (usizeOfI32 k ≤ num_records_read)
  | none => false

/-- Lines 132-134: `if input.num_records.is_some() && result.len() >
input.num_records.unwrap() as usize { result.truncate(...) }`. -/
def truncateTo {α : Type} (num_records : Option Int) (result : List α) : List α :=
  match num_records with
  | some k => if usizeOfI32 k < result.length then result.take (usizeOfI32 k) else result
  | none => result

/-- The `loop` of lines 101-131, with fuel and a ghost trace of read calls.
State per iteration: client state, `offset`, `num_records_read`, `result`.
* a failed read returns the error at once (lines 111-116), so the error is
  the last (and only failing) entry of the trace;
* an empty read breaks with the accumulated `result` (lines 118-120);
* otherwise `num_records_read`, `offset` and `result` advance
  (lines 122-124) and the cap check (lines 126-130) may break. -/
def runLoop {σ α ε : Type} (read : ReadFn σ α ε) (collection_id : String)
    (batch_size : Int) (num_records : Option Int) (end_timestamp : Option Int) :
    Nat → σ → Int → Nat → List α →
      Option (List (Int × RResult (List α) ε) × RResult (List α) ε)
  | 0, _, _, _, _ => none
  | fuel + 1, client, offset, num_records_read, result =>
    match read client collection_id offset batch_size end_timestamp with
    | (.err e, _) => some ([(offset, .err e)], .err e)
    | (.ok logs, client') =>
      if logs.isEmpty then
        some ([(offset, .ok logs)], .ok result)
      else
        let num_records_read' := num_records_read + logs.length
        let offset' := offset + batch_size
        let result' := result ++ logs
        if capReached num_records num_records_read' then
          some ([(offset, .ok logs)], .ok result')
        else
          match runLoop read collection_id batch_size num_records end_timestamp
              fuel client' offset' num_records_read' result' with
          | none => none
          | some (tr, out) => some ((offset, .ok logs) :: tr, out)

/-- After the loop: an early `return Err(e)` (line 114) skips truncation,
a `break` flows into lines 132-135. -/
def finalize {α ε : Type} (num_records : Option Int) :
    RResult (List α) ε → RResult (List α) ε
  | .err e => .err e
  | .ok result => .ok (truncateTo num_records result)

/-- `PullLogsOperator::run` (lines 93-136).  Line 96 clones the client, so the
loop runs on `client_clone` and the operator itself is returned unchanged
(the second component: the state of `&self` after the call). -/
def PullLogsOperator.run {σ α ε : Type} (read : ReadFn σ α ε) (fuel : Nat)
    (op : PullLogsOperator σ) (input : PullLogsInput) :
    Option (List (Int × RResult (List α) ε) × RResult (List α) ε) ×
      PullLogsOperator σ :=
  let client_clone := op.client
  match runLoop read input.collection_id input.batch_size input.num_records
      input.end_timestamp fuel client_clone input.offset 0 [] with
  | none => (none, op)
  | some (tr, out) => (some (tr, finalize input.num_records out), op)

/-- Is the entry's timestamp within the optional inclusive bound? -/
def tsWithin (end_timestamp : Option Int) (r : LogRecord) : Bool :=
  match end_timestamp with
  | some t => decide (r.log_id_ts ≤ t)
  | none => true

/-- Modelled from the spec: the Log-Source capability of §4.1 (the concrete
in-memory log implementation is outside `src/`; only this operator file is
shown).  The client state is the collection's full entry list, kept in
ascending `log_id` order and unchanged by reads.  A read returns "at most
`batch_size` entries, those with `log_id > offset` (and, when `end_timestamp`
is given, with `log_id_ts <= end_timestamp`), ordered by `log_id`"; a
negative `batch_size` yields no entries (`Int.toNat` sends it to `0`). -/
def specLogRead : ReadFn (List LogRecord) LogRecord PullLogsError :=
  fun entries _collection_id offset batch_size end_timestamp =>
    (.ok ((entries.filter (fun r =>
        decide (offset < r.log_id) && tsWithin end_timestamp r)).take
          batch_size.toNat),
      entries)

/-- The entries of `l` carry the consecutive log ids
`base + 1, base + 2, ...`: the log is addressed by position, with the read
cursor sitting just before the first entry (spec §3 and glossary: `log_id` is
"the log-assigned monotonic position", the offset "the exclusive starting
point of a read"). -/
def consecIds (base : Int) : List LogRecord → Bool
  | [] => true
  | r :: rest => decide (r.log_id = base + 1) && consecIds (base + 1) rest

/-- The first `F` entries of the list satisfy `p` and all later ones fail it
(so the `p`-satisfying entries are exactly a prefix of the list). -/
def takeSat (p : LogRecord → Bool) : Nat → List LogRecord → Bool
  | _, [] => true
  | 0, r :: rest => !p r && takeSat p 0 rest
  | F + 1, r :: rest => p r && takeSat p F rest

/-- A trace element whose read returned a non-empty batch of entries. -/
def nonemptyRead {α ε : Type} (p : Int × RResult (List α) ε) : Bool :=
  match p.2 with
  | .ok logs => !logs.isEmpty
  | .err _ => false

/-- The final read call of the trace succeeded with an empty batch. -/
def lastReadEmpty {α ε : Type} (tr : List (Int × RResult (List α) ε)) : Bool :=
  match tr.getLast? with
  | some (_, .ok logs) => logs.isEmpty
  | _ => false

/-- Consecutive read calls of the trace are `B` apart in offset. -/
def offsetStep {γ : Type} (B : Int) : List (Int × γ) → Bool
  | [] => true
  | [_] => true
  | x :: y :: t => decide (y.1 = x.1 + B) && offsetStep B (y :: t)

/-- Concatenation, in call order, of the entries the traced reads returned. -/
def okLogs {α ε : Type} : List (Int × RResult (List α) ε) → List α
  | [] => []
  | (_, .ok logs) :: t => logs ++ okLogs t
  | (_, .err _) :: t => okLogs t

/-- The list is strictly ascending by `log_id`. -/
def ascChain : List LogRecord → Bool
  | [] => true
  | [_] => true
  | x :: y :: t => decide (x.log_id < y.log_id) && ascChain (y :: t)

/-- Every read result recorded in the trace is ascending by `log_id`. -/
def readsAsc {ε : Type} (tr : List (Int × RResult (List LogRecord) ε)) : Bool :=
  tr.all (fun p =>
    match p.2 with
    | .ok logs => ascChain logs
    | .err _ => true)

/-- `⌈a / b⌉` on naturals (for `b > 0`). -/
def ceilDiv (a b : Nat) : Nat := (a + b - 1) / b

/-- Test double: a log client whose read at offset `0` succeeds with one
entry and whose reads at any later offset fail. -/
def failingSecondRead : ReadFn Unit LogRecord PullLogsError :=
  fun s _ o _ _ => (if o < 1 then .ok [⟨1, 1⟩] else .err .readFailure, s)

/-- Test double: a log client returning single-entry batches for offsets
below `10` and an empty batch afterwards (so its batches are smaller than
any `batch_size > 1` the operator may use). -/
def singleEntryBatches : ReadFn Unit LogRecord PullLogsError :=
  fun s _ o _ _ => (.ok (if o < 10 then [⟨o + 1, 0⟩] else []), s)

/-- One-step unfolding of the loop at positive fuel (stated once so goals can
be unfolded a single level without cascading into the recursive call). -/
theorem runLoop_succ {σ α ε : Type} (read : ReadFn σ α ε) (cid : String)
    (B : Int) (nr ts : Option Int) (fuel : Nat) (s : σ) (o : Int) (n : Nat)
    (acc : List α) :
    runLoop read cid B nr ts (fuel + 1) s o n acc =
      match read s cid o B ts with
      | (.err e, _) => some ([(o, .err e)], .err e)
      | (.ok logs, client') =>
        if logs.isEmpty then
          some ([(o, .ok logs)], .ok acc)
        else if capReached nr (n + logs.length) then
          some ([(o, .ok logs)], .ok (acc ++ logs))
        else
          match runLoop read cid B nr ts fuel client' (o + B) (n + logs.length)
              (acc ++ logs) with
          | none => none
          | some (tr, out) => some ((o, .ok logs) :: tr, out) := rfl

/-! ## Arithmetic helper lemmas -/

theorem ceilDiv_eq_zero {b : Nat} (hb : 0 < b) : ceilDiv 0 b = 0 := by
  unfold ceilDiv
  exact Nat.div_eq_of_lt (by omega)

theorem ceilDiv_succ {b R : Nat} (hb : 0 < b) (hR : 0 < R) :
    ceilDiv R b = ceilDiv (R - b) b + 1 := by
  unfold ceilDiv
  rcases le_or_lt R b with h | h
  · have h0 : R - b = 0 := by omega
    rw [h0]
    have h1 : (R + b - 1) / b = 1 := by
      apply Nat.div_eq_of_lt_le <;> omega
    have h2 : (0 + b - 1) / b = 0 := Nat.div_eq_of_lt (by omega)
    omega
  · have h3 : R + b - 1 = (R - b + b - 1) + b := by omega
    rw [h3, Nat.add_div_right _ hb]

theorem ceilDiv_le_self {b R : Nat} (hb : 0 < b) : ceilDiv R b ≤ R := by
  unfold ceilDiv
  rcases Nat.eq_zero_or_pos R with h | h
  · subst h
    have := Nat.div_eq_of_lt (show 0 + b - 1 < b by omega)
    omega
  · have hmul : R ≤ R * b := Nat.le_mul_of_pos_right R hb
    have := (Nat.div_lt_iff_lt_mul hb).mpr (show R + b - 1 < (R + 1) * b by
      have : (R + 1) * b = R * b + b := by ring
      omega)
    omega

/-- For `0 ≤ k < 2 ^ 31` (an `i32` in range), `k as usize` is just `k`. -/
theorem usizeOfI32_nonneg {k : Int} (h0 : 0 ≤ k) (h1 : k < 2 ^ 31) :
    usizeOfI32 k = k.toNat := by
  unfold usizeOfI32
  rw [Int.emod_eq_of_lt h0 (by omega)]

/-- For `-2 ^ 31 ≤ k < 0` (a negative `i32`), `k as usize` is the huge value
`2 ^ 64 + k`, in particular at least `2 ^ 63`. -/
theorem usizeOfI32_neg {k : Int} (h0 : k < 0) (h1 : -(2 ^ 31) ≤ k) :
    2 ^ 63 ≤ usizeOfI32 k := by
  unfold usizeOfI32
  have h2 : k % 2 ^ 64 = k + 2 ^ 64 := by omega
  omega

/-! ## Helper lemmas on the log-shape predicates -/

theorem consecIds_cons {base : Int} {r : LogRecord} {rest : List LogRecord}
    (h : consecIds base (r :: rest) = true) :
    r.log_id = base + 1 ∧ consecIds (base + 1) rest = true := by
  simpa [consecIds, Bool.and_eq_true, decide_eq_true_eq] using h

/-- Every entry of a consecutively-numbered list has id above the base. -/
theorem consecIds_gt {base : Int} {l : List LogRecord}
    (h : consecIds base l = true) : ∀ r ∈ l, base < r.log_id := by
  induction l generalizing base with
  | nil => intro r hr; cases hr
  | cons x rest ih =>
    obtain ⟨hx, hrest⟩ := consecIds_cons h
    intro r hr
    rcases List.mem_cons.mp hr with h1 | h1
    · subst h1; omega
    · have := ih hrest r h1
      omega

theorem takeSat_zero_not {p : LogRecord → Bool} {l : List LogRecord}
    (h : takeSat p 0 l = true) : ∀ r ∈ l, p r = false := by
  induction l with
  | nil => intro r hr; cases hr
  | cons x rest ih =>
    simp only [takeSat, Bool.and_eq_true, Bool.not_eq_true'] at h
    intro r hr
    rcases List.mem_cons.mp hr with h1 | h1
    · subst h1; exact h.1
    · exact ih h.2 r h1

/-- The `p`-satisfying entries of a `takeSat`-shaped list are its first `F`. -/
theorem takeSat_filter {p : LogRecord → Bool} {F : Nat} {l : List LogRecord}
    (h : takeSat p F l = true) : l.filter p = l.take F := by
  induction l generalizing F with
  | nil => simp
  | cons x rest ih =>
    cases F with
    | zero =>
      have hall := takeSat_zero_not h
      have : (x :: rest).filter p = [] := by
        rw [List.filter_eq_nil_iff]
        intro a ha
        simp [hall a ha]
      simp [this]
    | succ F =>
      simp only [takeSat, Bool.and_eq_true] at h
      simp [List.filter_cons, h.1, List.take_succ_cons, ih h.2]

/-- A list all of whose entries satisfy `p` is `takeSat p F` for any `F`
covering its length. -/
theorem takeSat_all {p : LogRecord → Bool} {l : List LogRecord} {F : Nat}
    (hall : ∀ r ∈ l, p r = true) (hF : l.length ≤ F) : takeSat p F l = true := by
  induction l generalizing F with
  | nil => cases F <;> rfl
  | cons x rest ih =>
    cases F with
    | zero => simp at hF
    | succ F =>
      simp only [takeSat, Bool.and_eq_true]
      exact ⟨hall x (List.mem_cons_self x rest),
        ih (fun r hr => hall r (List.mem_cons_of_mem x hr)) (by simpa using hF)⟩

/-- Key shape lemma: on a position-addressed log (consecutive ids from
`base + 1`) whose `p`-satisfying entries are exactly its first `F`, the
filter a read performs at offset `base + m` yields exactly
`(l.take F).drop m`. -/
theorem filter_consec_takeSat {p : LogRecord → Bool} (l : List LogRecord)
    (base : Int) (F m : Nat)
    (hcons : consecIds base l = true) (hF : takeSat p F l = true) :
    l.filter (fun r => decide (base + (m : Int) < r.log_id) && p r) =
      (l.take F).drop m := by
  induction l generalizing base F m with
  | nil => simp
  | cons x rest ih =>
    obtain ⟨hx, hrest⟩ := consecIds_cons hcons
    cases F with
    | zero =>
      have hall := takeSat_zero_not hF
      have : (x :: rest).filter (fun r => decide (base + (m : Int) < r.log_id) && p r) = [] := by
        rw [List.filter_eq_nil_iff]
        intro a ha
        simp [hall a ha]
      simp [this]
    | succ F =>
      simp only [takeSat, Bool.and_eq_true] at hF
      cases m with
      | zero =>
        have hhead : (decide (base + ((0 : Nat) : Int) < x.log_id) && p x) = true := by
          simp [hx, hF.1]
        rw [List.filter_cons, if_pos hhead]
        have htail : rest.filter (fun r => decide (base + ((0 : Nat) : Int) < r.log_id) && p r) =
            rest.filter p := by
          apply List.filter_congr
          intro r hr
          have hgt := consecIds_gt hrest r hr
          have hlt : base + ((0 : Nat) : Int) < r.log_id := by push_cast; omega
          rw [decide_eq_true hlt, Bool.true_and]
        rw [htail, takeSat_filter hF.2]
        simp [List.take_succ_cons]
      | succ m =>
        have hdec : decide (base + ((m + 1 : Nat) : Int) < x.log_id) = false := by
          simp only [decide_eq_false_iff_not]
          rw [hx]; push_cast; omega
        rw [List.filter_cons,
          if_neg (by rw [hdec, Bool.false_and]; exact Bool.false_ne_true)]
        have hcast : ∀ r : LogRecord,
            (decide (base + ((m + 1 : Nat) : Int) < r.log_id) && p r) =
              (decide ((base + 1) + (m : Int) < r.log_id) && p r) := by
          intro r
          have : base + ((m + 1 : Nat) : Int) = (base + 1) + (m : Int) := by
            push_cast; ring
          rw [this]
        rw [List.filter_congr (fun r _ => hcast r), ih (base + 1) F m hrest hF.2]
        simp [List.take_succ_cons]

/-- On a position-addressed log whose readable entries are the first `F`,
a read at `off0 + m` pages through `(l.take F).drop m`. -/
theorem specLogRead_drop {l : List LogRecord} {off0 : Int} {ts : Option Int}
    {F : Nat} (cid : String) (B : Int)
    (hcons : consecIds off0 l = true) (hF : takeSat (tsWithin ts) F l = true)
    (m : Nat) :
    specLogRead l cid (off0 + (m : Int)) B ts =
      (.ok (((l.take F).drop m).take B.toNat), l) := by
  unfold specLogRead
  rw [filter_consec_takeSat l off0 F m hcons hF]

theorem lastReadEmpty_cons {α ε : Type} (x : Int × RResult (List α) ε)
    {tr : List (Int × RResult (List α) ε)} (h : tr ≠ []) :
    lastReadEmpty (x :: tr) = lastReadEmpty tr := by
  cases tr with
  | nil => exact absurd rfl h
  | cons y t => simp [lastReadEmpty, List.getLast?_cons_cons]

/-! ## The loop on a paged list, without a record cap -/

/-- Master lemma for the uncapped loop: against a read that pages through the
fixed list `l` in strides of `b` (returning, at offset `off0 + m`, the slice
`(l.drop m).take b` and leaving the client state `s0` unchanged), the loop
started at `off0 + m` drains `l.drop m` completely, issuing
`⌈(l.length - m) / b⌉` non-empty reads and one final empty read. -/
theorem runLoop_pages {σ α ε : Type} {read : ReadFn σ α ε} {cid : String}
    {B : Int} {ts : Option Int} {l : List α} {off0 : Int} {b : Nat} {s0 : σ}
    (hb : 0 < b) (hB : B = (b : Int))
    (hread : ∀ m : Nat,
      read s0 cid (off0 + (m : Int)) B ts = (.ok ((l.drop m).take b), s0)) :
    ∀ (fuel m : Nat) (n : Nat) (acc : List α),
      ceilDiv (l.length - m) b + 1 ≤ fuel →
      ∃ tr,
        runLoop read cid B none ts fuel s0 (off0 + (m : Int)) n acc =
          some (tr, .ok (acc ++ l.drop m)) ∧
        tr.length = ceilDiv (l.length - m) b + 1 ∧
        tr.countP nonemptyRead = ceilDiv (l.length - m) b ∧
        lastReadEmpty tr = true := by
  intro fuel
  induction fuel with
  | zero => intro m n acc h; omega
  | succ f ih =>
    intro m n acc hfuel
    by_cases hm : l.length ≤ m
    · -- the log is exhausted: the read at `off0 + m` is empty and the loop breaks
      have hdrop : l.drop m = [] := List.drop_eq_nil_of_le hm
      have hread0 := hread m
      rw [hdrop] at hread0
      have hceil : ceilDiv (l.length - m) b = 0 := by
        have : l.length - m = 0 := by omega
        rw [this]; exact ceilDiv_eq_zero hb
      refine ⟨[(off0 + (m : Int), .ok [])], ?_, by simp [hceil], ?_, by rfl⟩
      · simp only [runLoop, hread0, List.take_nil, List.isEmpty_nil, if_true]
        rw [hdrop, List.append_nil]
      · simp [hceil, List.countP_cons, nonemptyRead]
    · -- a non-empty page: consume it and recurse one stride further
      push_neg at hm
      have hbatchlen : ((l.drop m).take b).length = min b (l.length - m) := by
        simp [List.length_take, List.length_drop]
      have hbatchpos : 0 < ((l.drop m).take b).length := by omega
      have hbatchne : (l.drop m).take b ≠ [] := List.ne_nil_of_length_pos hbatchpos
      have hbatchempty : ((l.drop m).take b).isEmpty = false := by
        rw [List.isEmpty_eq_false_iff_exists_mem]
        exact List.exists_mem_of_ne_nil _ hbatchne
      have hread0 := hread m
      have hoff : (off0 + (m : Int)) + B = off0 + ((m + b : Nat) : Int) := by
        rw [hB]; push_cast; ring
      have hceil : ceilDiv (l.length - m) b = ceilDiv (l.length - (m + b)) b + 1 := by
        have h1 : 0 < l.length - m := by omega
        have h2 : l.length - (m + b) = l.length - m - b := by omega
        rw [h2]
        exact ceilDiv_succ hb h1
      have hfuel' : ceilDiv (l.length - (m + b)) b + 1 ≤ f := by omega
      obtain ⟨tr, heq, hlen, hcnt, hlast⟩ :=
        ih (m + b) (n + ((l.drop m).take b).length) (acc ++ (l.drop m).take b) hfuel'
      have htrne : tr ≠ [] := by
        apply List.ne_nil_of_length_pos
        omega
      refine ⟨(off0 + (m : Int), .ok ((l.drop m).take b)) :: tr, ?_, ?_, ?_, ?_⟩
      · simp only [runLoop, hread0, hbatchempty, Bool.false_eq_true, if_false,
          capReached, hoff, heq]
        have hjoin : (l.drop m).take b ++ l.drop (m + b) = l.drop m := by
          have h0 := List.take_append_drop b (l.drop m)
          rw [List.drop_drop] at h0
          exact h0
        rw [List.append_assoc, hjoin]
      · simp only [List.length_cons, hlen, hceil]
      · rw [List.countP_cons, hcnt]
        have : nonemptyRead (((off0 + (m : Int), RResult.ok ((l.drop m).take b)) :
            Int × RResult (List α) ε)) = true := by
          simp [nonemptyRead, hbatchempty]
        rw [this]
        simp [hceil]
      · rw [lastReadEmpty_cons _ htrne]
        exact hlast

theorem take_eq_take_min {α : Type} (l : List α) (i : Nat) :
    l.take i = l.take (min i l.length) := by
  rcases le_total i l.length with h | h
  · rw [min_eq_left h]
  · rw [min_eq_right h, List.take_of_length_le h, List.take_length]

/-! ## The loop on a paged list, with a record cap -/

/-- Master lemma for the capped loop: with `num_records = some k`, the loop
started `j` whole strides in still returns a prefix `l.take t` of the log,
where `t` lies between the effective cap `min (k as usize) l.length` and
`l.length` (the final batch may overshoot the cap; the final truncation step
cuts it back). -/
theorem runLoop_pages_cap {σ α ε : Type} {read : ReadFn σ α ε} {cid : String}
    {B : Int} {ts : Option Int} {l : List α} {off0 : Int} {b : Nat} {s0 : σ}
    {k : Int} (hb : 0 < b) (hB : B = (b : Int))
    (hread : ∀ m : Nat,
      read s0 cid (off0 + (m : Int)) B ts = (.ok ((l.drop m).take b), s0)) :
    ∀ (fuel j : Nat),
      ceilDiv (l.length - j * b) b + 1 ≤ fuel →
      ∃ tr t,
        runLoop read cid B (some k) ts fuel s0 (off0 + ((j * b : Nat) : Int))
            (min (j * b) l.length) (l.take (j * b)) =
          some (tr, .ok (l.take t)) ∧
        min (usizeOfI32 k) l.length ≤ t ∧ t ≤ l.length := by
  intro fuel
  induction fuel with
  | zero => intro j h; omega
  | succ f ih =>
    intro j hfuel
    by_cases hm : l.length ≤ j * b
    · -- exhausted before the cap: empty read, break with everything read so far
      have hread0 := hread (j * b)
      rw [List.drop_eq_nil_of_le hm] at hread0
      refine ⟨[(off0 + ((j * b : Nat) : Int), .ok [])], l.length, ?_,
        min_le_right _ _, le_refl _⟩
      simp only [runLoop, hread0, List.take_nil, List.isEmpty_nil, if_true]
      rw [List.take_of_length_le hm, List.take_length]
    · push_neg at hm
      have hread0 := hread (j * b)
      have hbatchlen : ((l.drop (j * b)).take b).length = min b (l.length - j * b) := by
        simp [List.length_take, List.length_drop]
      have hbatchpos : 0 < ((l.drop (j * b)).take b).length := by omega
      have hbatchne : (l.drop (j * b)).take b ≠ [] := List.ne_nil_of_length_pos hbatchpos
      have hbatchempty : ((l.drop (j * b)).take b).isEmpty = false := by
        rw [List.isEmpty_eq_false_iff_exists_mem]
        exact List.exists_mem_of_ne_nil _ hbatchne
      have hsm : (j + 1) * b = j * b + b := Nat.succ_mul j b
      have hn' : min (j * b) l.length + ((l.drop (j * b)).take b).length =
          min ((j + 1) * b) l.length := by omega
      have hacc : l.take (j * b) ++ (l.drop (j * b)).take b = l.take ((j + 1) * b) := by
        rw [← List.take_add, hsm]
      by_cases hcap : usizeOfI32 k ≤ min ((j + 1) * b) l.length
      · -- the cap check on the new count fires: break with the overshooting batch
        refine ⟨[(off0 + ((j * b : Nat) : Int), .ok ((l.drop (j * b)).take b))],
          min ((j + 1) * b) l.length, ?_, le_trans (min_le_left _ _) hcap,
          min_le_right _ _⟩
        simp only [runLoop, hread0, hbatchempty, Bool.false_eq_true, if_false,
          capReached, hn', decide_eq_true hcap, if_true]
        rw [hacc, take_eq_take_min l ((j + 1) * b)]
      · -- cap not yet reached: recurse one stride further
        have hfuel' : ceilDiv (l.length - (j + 1) * b) b + 1 ≤ f := by
          have h1 : 0 < l.length - j * b := by omega
          have h2 := ceilDiv_succ (R := l.length - j * b) hb h1
          have h3 : l.length - (j + 1) * b = l.length - j * b - b := by omega
          rw [h3]
          omega
        obtain ⟨tr, t, heq, h1, h2⟩ := ih (j + 1) hfuel'
        refine ⟨(off0 + ((j * b : Nat) : Int), .ok ((l.drop (j * b)).take b)) :: tr,
          t, ?_, h1, h2⟩
        have hoff : (off0 + ((j * b : Nat) : Int)) + B =
            off0 + (((j + 1) * b : Nat) : Int) := by
          rw [hB]; push_cast; ring
        simp only [runLoop, hread0, hbatchempty, Bool.false_eq_true, if_false,
          capReached, hn', decide_eq_false hcap, hoff, hacc, heq]

/-! ## Bridges between the loop and `PullLogsOperator.run` -/

theorem run_eq_of_runLoop {σ α ε : Type} (read : ReadFn σ α ε) (fuel : Nat)
    (op : PullLogsOperator σ) (input : PullLogsInput)
    {tr : List (Int × RResult (List α) ε)} {out : RResult (List α) ε}
    (h : runLoop read input.collection_id input.batch_size input.num_records
      input.end_timestamp fuel op.client input.offset 0 [] = some (tr, out)) :
    PullLogsOperator.run read fuel op input =
      (some (tr, finalize input.num_records out), op) := by
  simp only [PullLogsOperator.run]
  rw [h]

theorem runLoop_of_run {σ α ε : Type} {read : ReadFn σ α ε} {fuel : Nat}
    {op : PullLogsOperator σ} {input : PullLogsInput}
    {tr : List (Int × RResult (List α) ε)} {out : RResult (List α) ε}
    (h : (PullLogsOperator.run read fuel op input).1 = some (tr, out)) :
    ∃ out0, runLoop read input.collection_id input.batch_size input.num_records
        input.end_timestamp fuel op.client input.offset 0 [] = some (tr, out0) ∧
      out = finalize input.num_records out0 := by
  simp only [PullLogsOperator.run] at h
  cases hrec : runLoop read input.collection_id input.batch_size input.num_records
      input.end_timestamp fuel op.client input.offset 0 [] with
  | none => rw [hrec] at h; simp at h
  | some p =>
    obtain ⟨tr0, out0⟩ := p
    rw [hrec] at h
    simp only [Option.some.injEq, Prod.mk.injEq] at h
    exact ⟨out0, by rw [← h.1], h.2.symm⟩

/-! ## General facts about the loop, for arbitrary (stateful) log clients -/

/-- If any read recorded in the trace failed with `e`, the loop's outcome is
exactly `err e`: the failure aborts the invocation and the accumulated
entries are discarded. -/
theorem runLoop_err_last {σ α ε : Type} (read : ReadFn σ α ε) (cid : String)
    (B : Int) (nr ts : Option Int) :
    ∀ (fuel : Nat) (s : σ) (o : Int) (n : Nat) (acc : List α)
      (tr : List (Int × RResult (List α) ε)) (out : RResult (List α) ε),
      runLoop read cid B nr ts fuel s o n acc = some (tr, out) →
      ∀ (o' : Int) (e : ε), (o', .err e) ∈ tr → out = .err e := by
  intro fuel
  induction fuel with
  | zero => intro s o n acc tr out h; simp [runLoop] at h
  | succ f ih =>
    intro s o n acc tr out h o' e hmem
    simp only [runLoop] at h
    rcases hR : read s cid o B ts with ⟨res, s'⟩
    rw [hR] at h
    cases res with
    | err e0 =>
      simp only [Option.some.injEq, Prod.mk.injEq] at h
      obtain ⟨htr, hout⟩ := h
      subst htr
      rcases List.mem_singleton.mp hmem with h1
      injection h1 with h1a h1b
      injection h1b with h1c
      rw [← hout, h1c]
    | ok logs =>
      by_cases hemp : logs.isEmpty
      · simp only [hemp, if_true, Option.some.injEq, Prod.mk.injEq] at h
        obtain ⟨htr, hout⟩ := h
        subst htr
        rcases List.mem_singleton.mp hmem with h1
        injection h1 with h1a h1b
        exact absurd h1b (by simp)
      · rw [Bool.not_eq_true] at hemp
        simp only [hemp, Bool.false_eq_true, if_false] at h
        by_cases hcap : capReached nr (n + logs.length)
        · simp only [hcap, if_true, Option.some.injEq, Prod.mk.injEq] at h
          obtain ⟨htr, hout⟩ := h
          subst htr
          rcases List.mem_singleton.mp hmem with h1
          injection h1 with h1a h1b
          exact absurd h1b (by simp)
        · rw [Bool.not_eq_true] at hcap
          simp only [hcap, Bool.false_eq_true, if_false] at h
          cases hrec : runLoop read cid B nr ts f s' (o + B) (n + logs.length)
              (acc ++ logs) with
          | none => rw [hrec] at h; simp at h
          | some p =>
            obtain ⟨tr', out'⟩ := p
            rw [hrec] at h
            simp only [Option.some.injEq, Prod.mk.injEq] at h
            obtain ⟨htr, hout⟩ := h
            subst htr
            rcases List.mem_cons.mp hmem with h1 | h1
            · injection h1 with h1a h1b
              exact absurd h1b (by simp)
            · rw [← hout]
              exact ih s' (o + B) (n + logs.length) (acc ++ logs) tr' out' hrec o' e h1

/-- The trace starts at the starting offset and each subsequent read call is
issued at exactly the previous offset plus `batch_size`. -/
theorem runLoop_offsetStep {σ α ε : Type} (read : ReadFn σ α ε) (cid : String)
    (B : Int) (nr ts : Option Int) :
    ∀ (fuel : Nat) (s : σ) (o : Int) (n : Nat) (acc : List α)
      (tr : List (Int × RResult (List α) ε)) (out : RResult (List α) ε),
      runLoop read cid B nr ts fuel s o n acc = some (tr, out) →
      offsetStep B tr = true ∧ ∃ r rest, tr = (o, r) :: rest := by
  intro fuel
  induction fuel with
  | zero => intro s o n acc tr out h; simp [runLoop] at h
  | succ f ih =>
    intro s o n acc tr out h
    simp only [runLoop] at h
    rcases hR : read s cid o B ts with ⟨res, s'⟩
    rw [hR] at h
    cases res with
    | err e0 =>
      simp only [Option.some.injEq, Prod.mk.injEq] at h
      obtain ⟨htr, hout⟩ := h
      subst htr
      exact ⟨rfl, .err e0, [], rfl⟩
    | ok logs =>
      by_cases hemp : logs.isEmpty
      · simp only [hemp, if_true, Option.some.injEq, Prod.mk.injEq] at h
        obtain ⟨htr, hout⟩ := h
        subst htr
        exact ⟨rfl, .ok logs, [], rfl⟩
      · rw [Bool.not_eq_true] at hemp
        simp only [hemp, Bool.false_eq_true, if_false] at h
        by_cases hcap : capReached nr (n + logs.length)
        · simp only [hcap, if_true, Option.some.injEq, Prod.mk.injEq] at h
          obtain ⟨htr, hout⟩ := h
          subst htr
          exact ⟨rfl, .ok logs, [], rfl⟩
        · rw [Bool.not_eq_true] at hcap
          simp only [hcap, Bool.false_eq_true, if_false] at h
          cases hrec : runLoop read cid B nr ts f s' (o + B) (n + logs.length)
              (acc ++ logs) with
          | none => rw [hrec] at h; simp at h
          | some p =>
            obtain ⟨tr', out'⟩ := p
            rw [hrec] at h
            simp only [Option.some.injEq, Prod.mk.injEq] at h
            obtain ⟨htr, hout⟩ := h
            subst htr
            obtain ⟨hstep, r', rest', htr'⟩ :=
              ih s' (o + B) (n + logs.length) (acc ++ logs) tr' out' hrec
            subst htr'
            refine ⟨?_, .ok logs, (o + B, r') :: rest', rfl⟩
            simp only [offsetStep, Bool.and_eq_true, decide_eq_true_eq]
            exact ⟨trivial, hstep⟩

/-- A successful loop's result is the accumulator followed by the
concatenation, in call order, of everything the reads returned. -/
theorem runLoop_okLogs {σ α ε : Type} (read : ReadFn σ α ε) (cid : String)
    (B : Int) (nr ts : Option Int) :
    ∀ (fuel : Nat) (s : σ) (o : Int) (n : Nat) (acc : List α)
      (tr : List (Int × RResult (List α) ε)) (lres : List α),
      runLoop read cid B nr ts fuel s o n acc = some (tr, .ok lres) →
      lres = acc ++ okLogs tr := by
  intro fuel
  induction fuel with
  | zero => intro s o n acc tr lres h; simp [runLoop] at h
  | succ f ih =>
    intro s o n acc tr lres h
    simp only [runLoop] at h
    rcases hR : read s cid o B ts with ⟨res, s'⟩
    rw [hR] at h
    cases res with
    | err e0 => simp at h
    | ok logs =>
      by_cases hemp : logs.isEmpty
      · simp only [hemp, if_true, Option.some.injEq, Prod.mk.injEq, RResult.ok.injEq] at h
        obtain ⟨htr, hout⟩ := h
        subst htr
        have hlogs : logs = [] := List.isEmpty_iff.mp hemp
        subst hlogs
        simp [okLogs, hout]
      · rw [Bool.not_eq_true] at hemp
        simp only [hemp, Bool.false_eq_true, if_false] at h
        by_cases hcap : capReached nr (n + logs.length)
        · simp only [hcap, if_true, Option.some.injEq, Prod.mk.injEq, RResult.ok.injEq] at h
          obtain ⟨htr, hout⟩ := h
          subst htr
          simp [okLogs, hout]
        · rw [Bool.not_eq_true] at hcap
          simp only [hcap, Bool.false_eq_true, if_false] at h
          cases hrec : runLoop read cid B nr ts f s' (o + B) (n + logs.length)
              (acc ++ logs) with
          | none => rw [hrec] at h; simp at h
          | some p =>
            obtain ⟨tr', out'⟩ := p
            rw [hrec] at h
            simp only [Option.some.injEq, Prod.mk.injEq] at h
            obtain ⟨htr, hout⟩ := h
            subst htr
            cases out' with
            | err e0 => exact absurd hout (by simp)
            | ok l0 =>
              have hstep := ih s' (o + B) (n + logs.length) (acc ++ logs) tr' l0 hrec
              have hl : lres = l0 := by
                have := hout
                injection this with h1
                exact h1.symm
              rw [hl, hstep, okLogs, List.append_assoc]

/-! ## Truncation and order helpers -/

/-- Truncating a prefix `l.take t` that covers the effective cap yields
exactly the capped prefix. -/
theorem truncateTo_take {α : Type} (k : Int) (l : List α) (t : Nat)
    (h1 : min (usizeOfI32 k) l.length ≤ t) (h2 : t ≤ l.length) :
    truncateTo (some k) (l.take t) = l.take (min (usizeOfI32 k) l.length) := by
  simp only [truncateTo]
  have hlen : (l.take t).length = t := by rw [List.length_take]; omega
  by_cases hc : usizeOfI32 k < (l.take t).length
  · rw [if_pos hc, List.take_take]
    rw [hlen] at hc
    have : min (usizeOfI32 k) t = min (usizeOfI32 k) l.length := by omega
    rw [this]
  · rw [if_neg hc]
    rw [hlen] at hc
    have : t = min (usizeOfI32 k) l.length := by omega
    rw [this]

/-- Truncation only ever removes a tail: the original list is the truncated
list followed by some rest. -/
theorem truncateTo_append {α : Type} (nr : Option Int) (l : List α) :
    ∃ rest, l = truncateTo nr l ++ rest := by
  cases nr with
  | none => exact ⟨[], by simp [truncateTo]⟩
  | some k =>
    simp only [truncateTo]
    by_cases hc : usizeOfI32 k < l.length
    · rw [if_pos hc]
      exact ⟨l.drop (usizeOfI32 k), (List.take_append_drop _ _).symm⟩
    · rw [if_neg hc]
      exact ⟨[], by simp⟩

/-- A left factor of an ascending concatenation is ascending. -/
theorem ascChain_append {l r : List LogRecord} (h : ascChain (l ++ r) = true) :
    ascChain l = true := by
  induction l with
  | nil => rfl
  | cons x xs ih =>
    cases xs with
    | nil => rfl
    | cons y t =>
      simp only [List.cons_append] at h
      simp only [ascChain, Bool.and_eq_true] at h ⊢
      exact ⟨h.1, ih h.2⟩

/-! ## The cap check is inert while the count stays below the cap -/

/-- As long as the total count the loop can reach stays strictly below the
effective cap `k as usize`, running with `num_records = some k` is
indistinguishable from running with no cap at all. -/
theorem runLoop_cap_irrelevant {σ α ε : Type} {read : ReadFn σ α ε}
    {cid : String} {B : Int} {ts : Option Int} {k : Int} {b : Nat}
    (hbound : ∀ (s : σ) (o : Int) (logs : List α) (s' : σ),
      read s cid o B ts = (.ok logs, s') → logs.length ≤ b) :
    ∀ (fuel : Nat) (s : σ) (o : Int) (n : Nat) (acc : List α),
      n + fuel * b < usizeOfI32 k →
      runLoop read cid B (some k) ts fuel s o n acc =
        runLoop read cid B none ts fuel s o n acc := by
  intro fuel
  induction fuel with
  | zero => intro s o n acc hlt; rfl
  | succ f ih =>
    intro s o n acc hlt
    rcases hR : read s cid o B ts with ⟨res, s'⟩
    cases res with
    | err e => simp only [runLoop, hR]
    | ok logs =>
      by_cases hemp : logs.isEmpty
      · simp only [runLoop, hR, hemp, if_true]
      · rw [Bool.not_eq_true] at hemp
        have hlen := hbound s o logs s' hR
        have hsm : (f + 1) * b = f * b + b := Nat.succ_mul f b
        have hcap : capReached (some k) (n + logs.length) = false := by
          simp only [capReached, decide_eq_false_iff_not]
          omega
        have hcapnone : capReached none (n + logs.length) = false := rfl
        have hih := ih s' (o + B) (n + logs.length) (acc ++ logs) (by omega)
        rw [runLoop_succ, runLoop_succ, hR]
        simp only [hemp, Bool.false_eq_true, if_false, hcap, hcapnone, hih]

/-- Under batches of at most `b` entries, a successful loop run can have
accumulated at most `fuel * b` entries beyond its accumulator. -/
theorem runLoop_len_bound {σ α ε : Type} {read : ReadFn σ α ε} {cid : String}
    {B : Int} {nr ts : Option Int} {b : Nat}
    (hbound : ∀ (s : σ) (o : Int) (logs : List α) (s' : σ),
      read s cid o B ts = (.ok logs, s') → logs.length ≤ b) :
    ∀ (fuel : Nat) (s : σ) (o : Int) (n : Nat) (acc : List α)
      (tr : List (Int × RResult (List α) ε)) (lres : List α),
      runLoop read cid B nr ts fuel s o n acc = some (tr, .ok lres) →
      lres.length ≤ acc.length + fuel * b := by
  intro fuel
  induction fuel with
  | zero => intro s o n acc tr lres h; simp [runLoop] at h
  | succ f ih =>
    intro s o n acc tr lres h
    simp only [runLoop] at h
    rcases hR : read s cid o B ts with ⟨res, s'⟩
    rw [hR] at h
    cases res with
    | err e0 => simp at h
    | ok logs =>
      have hlen := hbound s o logs s' hR
      have hsm : (f + 1) * b = f * b + b := Nat.succ_mul f b
      by_cases hemp : logs.isEmpty
      · simp only [hemp, if_true, Option.some.injEq, Prod.mk.injEq,
          RResult.ok.injEq] at h
        obtain ⟨-, hout⟩ := h
        rw [← hout]
        omega
      · rw [Bool.not_eq_true] at hemp
        simp only [hemp, Bool.false_eq_true, if_false] at h
        by_cases hcap : capReached nr (n + logs.length)
        · simp only [hcap, if_true, Option.some.injEq, Prod.mk.injEq,
            RResult.ok.injEq] at h
          obtain ⟨-, hout⟩ := h
          rw [← hout, List.length_append]
          omega
        · rw [Bool.not_eq_true] at hcap
          simp only [hcap, Bool.false_eq_true, if_false] at h
          cases hrec : runLoop read cid B nr ts f s' (o + B) (n + logs.length)
              (acc ++ logs) with
          | none => rw [hrec] at h; simp at h
          | some p =>
            obtain ⟨tr', out'⟩ := p
            rw [hrec] at h
            simp only [Option.some.injEq, Prod.mk.injEq] at h
            obtain ⟨-, hout⟩ := h
            cases out' with
            | err e0 => exact absurd hout (by simp)
            | ok l0 =>
              have hstep := ih s' (o + B) (n + logs.length) (acc ++ logs) tr' l0 hrec
              have hl : lres = l0 := by injection hout with h1; exact h1.symm
              rw [hl]
              have := List.length_append acc logs
              omega

/-! ## Termination against an eventually-empty log source -/

/-- If every read at or past offset `M` reports an empty batch (the log holds
finitely many entries), the loop halts within `f + 1` iterations whenever the
starting offset is within `f` strides of `M`: the offset grows by
`batch_size > 0` on every non-empty read. -/
theorem runLoop_ne_none {σ α ε : Type} {read : ReadFn σ α ε} {cid : String}
    {B : Int} {nr ts : Option Int} {M : Int}
    (hM : ∀ (s : σ) (o : Int), M ≤ o → (read s cid o B ts).1 = .ok []) :
    ∀ (f : Nat) (s : σ) (o : Int) (n : Nat) (acc : List α),
      M ≤ o + (f : Int) * B →
      runLoop read cid B nr ts (f + 1) s o n acc ≠ none := by
  intro f
  induction f with
  | zero =>
    intro s o n acc hle
    simp only [Nat.cast_zero, zero_mul, add_zero] at hle
    have h0 := hM s o hle
    rcases hR : read s cid o B ts with ⟨res, s'⟩
    rw [hR] at h0
    simp only at h0
    subst h0
    simp [runLoop, hR]
  | succ f ih =>
    intro s o n acc hle
    rcases hR : read s cid o B ts with ⟨res, s'⟩
    cases res with
    | err e => simp [runLoop, hR]
    | ok logs =>
      by_cases hemp : logs.isEmpty
      · simp [runLoop, hR, hemp]
      · rw [Bool.not_eq_true] at hemp
        by_cases hcap : capReached nr (n + logs.length)
        · simp [runLoop, hR, hemp, hcap]
        · rw [Bool.not_eq_true] at hcap
          have hle' : M ≤ (o + B) + (f : Int) * B := by
            have h2 : ((f + 1 : Nat) : Int) * B = (f : Int) * B + B := by
              push_cast; ring
            rw [h2] at hle
            omega
          have hne := ih s' (o + B) (n + logs.length) (acc ++ logs) hle'
          cases hrec : runLoop read cid B nr ts (f + 1) s' (o + B)
              (n + logs.length) (acc ++ logs) with
          | none => exact absurd hrec hne
          | some p =>
            obtain ⟨tr, out⟩ := p
            rw [runLoop_succ, hR]
            simp only [hemp, Bool.false_eq_true, if_false, hcap, hrec]
            simp

/-! ## The claims -/

/-- C1: against a log source holding `E` entries for the collection
(position-addressed: consecutive log ids starting right after the input
offset), with `batch_size = B > 0`, no `num_records` and no `end_timestamp`,
`run` returns `Ok` with exactly the `E` entries in their original order, and
it issues exactly `⌈E / B⌉` reads that return entries plus one final read
that returns an empty result (`⌈E / B⌉ + 1` reads in total, the last one
empty; for `E = 0` that is the single empty read). -/
theorem pullLogs_no_cap_returns_all (cid : String) (entries : List LogRecord)
    (off0 B : Int) (fuel : Nat) (hB : 0 < B)
    (hcons : consecIds off0 entries = true)
    (hfuel : entries.length + 2 ≤ fuel) :
    ∃ tr,
      (PullLogsOperator.run specLogRead fuel ⟨entries⟩
          ⟨cid, off0, B, none, none⟩).1 = some (tr, .ok entries) ∧
      tr.length = ceilDiv entries.length B.toNat + 1 ∧
      tr.countP nonemptyRead = ceilDiv entries.length B.toNat ∧
      lastReadEmpty tr = true := by
  have hb : 0 < B.toNat := by omega
  have hBb : B = (B.toNat : Int) := (Int.toNat_of_nonneg (le_of_lt hB)).symm
  have hts : takeSat (tsWithin none) entries.length entries = true :=
    takeSat_all (fun r _ => rfl) (le_refl _)
  have hread : ∀ m : Nat, specLogRead entries cid (off0 + (m : Int)) B none =
      (.ok ((entries.drop m).take B.toNat), entries) := by
    intro m
    have h0 := specLogRead_drop cid B hcons hts m
    rw [List.take_length] at h0
    exact h0
  have hfuel0 : ceilDiv (entries.length - 0) B.toNat + 1 ≤ fuel := by
    have := ceilDiv_le_self (R := entries.length - 0) hb
    omega
  obtain ⟨tr, heq, hlen, hcnt, hlast⟩ :=
    runLoop_pages hb hBb hread fuel 0 0 [] hfuel0
  simp only [Nat.cast_zero, add_zero, List.drop_zero, List.nil_append,
    Nat.sub_zero] at heq hlen hcnt
  have hrun := run_eq_of_runLoop specLogRead fuel ⟨entries⟩
    ⟨cid, off0, B, none, none⟩ heq
  refine ⟨tr, ?_, hlen, hcnt, hlast⟩
  rw [hrun]
  rfl

/-- C1 witness: two entries, `batch_size = 1`: two non-empty reads plus one
empty read, both entries returned in order. -/
theorem pullLogs_no_cap_returns_all_witness :
    ∃ tr,
      (PullLogsOperator.run specLogRead 4 ⟨[⟨1, 1⟩, ⟨2, 2⟩]⟩
          ⟨"c", 0, 1, none, none⟩).1 = some (tr, .ok [⟨1, 1⟩, ⟨2, 2⟩]) ∧
      tr.length = ceilDiv ([⟨1, 1⟩, ⟨2, 2⟩] : List LogRecord).length
          (1 : Int).toNat + 1 ∧
      tr.countP nonemptyRead = ceilDiv ([⟨1, 1⟩, ⟨2, 2⟩] : List LogRecord).length
          (1 : Int).toNat ∧
      lastReadEmpty tr = true :=
  pullLogs_no_cap_returns_all "c" [⟨1, 1⟩, ⟨2, 2⟩] 0 1 4 (by decide)
    (by decide) (by decide)

/-- C2: with `num_records = some k` (`0 ≤ k < 2^31`) against a
position-addressed log source holding `E` entries, `run` returns `Ok` with
exactly `min k E` entries, namely the first `min k E` entries in accumulated
order — whatever the (positive) `batch_size`. -/
theorem pullLogs_cap_min (cid : String) (entries : List LogRecord)
    (off0 B k : Int) (fuel : Nat) (hB : 0 < B) (hk : 0 ≤ k)
    (hk32 : k < 2 ^ 31)
    (hcons : consecIds off0 entries = true)
    (hfuel : entries.length + 2 ≤ fuel) :
    ∃ tr,
      (PullLogsOperator.run specLogRead fuel ⟨entries⟩
          ⟨cid, off0, B, some k, none⟩).1 =
        some (tr, .ok (entries.take (min k.toNat entries.length))) ∧
      (entries.take (min k.toNat entries.length)).length =
        min k.toNat entries.length := by
  have hb : 0 < B.toNat := by omega
  have hBb : B = (B.toNat : Int) := (Int.toNat_of_nonneg (le_of_lt hB)).symm
  have hts : takeSat (tsWithin none) entries.length entries = true :=
    takeSat_all (fun r _ => rfl) (le_refl _)
  have hread : ∀ m : Nat, specLogRead entries cid (off0 + (m : Int)) B none =
      (.ok ((entries.drop m).take B.toNat), entries) := by
    intro m
    have h0 := specLogRead_drop cid B hcons hts m
    rw [List.take_length] at h0
    exact h0
  have hfuel0 : ceilDiv (entries.length - 0 * B.toNat) B.toNat + 1 ≤ fuel := by
    have := ceilDiv_le_self (R := entries.length - 0 * B.toNat) hb
    omega
  obtain ⟨tr, t, heq, h1, h2⟩ :=
    runLoop_pages_cap (k := k) hb hBb hread fuel 0 hfuel0
  simp only [Nat.zero_mul, Nat.cast_zero, add_zero, List.take_zero,
    Nat.zero_min, Nat.min_zero] at heq
  have hrun := run_eq_of_runLoop specLogRead fuel ⟨entries⟩
    ⟨cid, off0, B, some k, none⟩ heq
  have hK : usizeOfI32 k = k.toNat := usizeOfI32_nonneg hk hk32
  rw [hK] at h1
  refine ⟨tr, ?_, ?_⟩
  · rw [hrun]
    simp only [finalize]
    have htrunc := truncateTo_take k entries t (by rw [hK]; exact h1) h2
    rw [htrunc, hK]
  · rw [List.length_take]
    omega

/-- C2 witness: two entries, cap `1`, large batch size `100`: exactly
`min 1 2 = 1` entry comes back. -/
theorem pullLogs_cap_min_witness :
    ∃ tr,
      (PullLogsOperator.run specLogRead 4 ⟨[⟨1, 1⟩, ⟨2, 2⟩]⟩
          ⟨"c", 0, 100, some 1, none⟩).1 =
        some (tr, .ok (([⟨1, 1⟩, ⟨2, 2⟩] : List LogRecord).take
          (min (1 : Int).toNat ([⟨1, 1⟩, ⟨2, 2⟩] : List LogRecord).length))) ∧
      (([⟨1, 1⟩, ⟨2, 2⟩] : List LogRecord).take
          (min (1 : Int).toNat ([⟨1, 1⟩, ⟨2, 2⟩] : List LogRecord).length)).length =
        min (1 : Int).toNat ([⟨1, 1⟩, ⟨2, 2⟩] : List LogRecord).length :=
  pullLogs_cap_min "c" [⟨1, 1⟩, ⟨2, 2⟩] 0 100 1 4 (by decide) (by decide)
    (by decide) (by decide) (by decide)

/-- C3: for every log client and every input, if any read recorded in the
trace of the invocation failed with error `e`, then `run`'s outcome is that
very `.err e` — unchanged, bypassing truncation, and carrying none of the
entries accumulated by the earlier successful reads (all-or-nothing). -/
theorem pullLogs_error_aborts {σ α ε : Type} (read : ReadFn σ α ε)
    (fuel : Nat) (op : PullLogsOperator σ) (input : PullLogsInput)
    (tr : List (Int × RResult (List α) ε)) (out : RResult (List α) ε)
    (o : Int) (e : ε)
    (hrun : (PullLogsOperator.run read fuel op input).1 = some (tr, out))
    (hmem : (o, .err e) ∈ tr) :
    out = .err e := by
  obtain ⟨out0, hloop, hfin⟩ := runLoop_of_run hrun
  have h0 := runLoop_err_last read input.collection_id input.batch_size
    input.num_records input.end_timestamp fuel op.client input.offset 0 []
    tr out0 hloop o e hmem
  rw [hfin, h0]
  rfl

/-- C3 witness: a client whose second read fails: the whole run surfaces
exactly that error, not the entry the first read had delivered. -/
theorem pullLogs_error_aborts_witness :
    (PullLogsOperator.run failingSecondRead 3 ⟨()⟩ ⟨"c", 0, 1, none, none⟩).1 =
      some ([(0, .ok [⟨1, 1⟩]), (1, .err .readFailure)], .err .readFailure) ∧
    (RResult.err PullLogsError.readFailure :
        RResult (List LogRecord) PullLogsError) = .err .readFailure :=
  ⟨by decide,
    pullLogs_error_aborts failingSecondRead 3 ⟨()⟩ ⟨"c", 0, 1, none, none⟩
      [(0, .ok [⟨1, 1⟩]), (1, .err .readFailure)] (.err .readFailure) 1
      .readFailure (by decide) (by decide)⟩

/-- C4 (the claim describes intended behaviour the code does not implement):
with `batch_size = 0` against a log holding two entries, `run` performs a
read call (the trace is non-empty) and returns `Ok` with no entries instead
of rejecting the non-positive batch size with an `InvalidArgument`-class
failure before any read; with a client that answers non-empty batches the
loop never terminates at all. -/
theorem pullLogs_nonpositive_batch_not_rejected :
    (PullLogsOperator.run specLogRead 5 ⟨[⟨1, 1⟩, ⟨2, 2⟩]⟩
        ⟨"c", 0, 0, none, none⟩).1 =
      some ([(0, .ok [])], .ok []) := by decide

/-- C5 counterexample: on a log whose timestamps are not monotone
(`log_id_ts` values `5, 1, 1` for ids `1, 2, 3`), with `end_timestamp = 1`,
`batch_size = 1` yields `[2, 2, 3]` (a duplicated entry!) while
`batch_size = 3` yields `[2, 3]`: changing `batch_size` alone changes the
result, and the `batch_size = 1` output is not the `log_id_ts ≤ 1` subset. -/
theorem pullLogs_end_ts_batch_cex :
    ((PullLogsOperator.run specLogRead 6 ⟨[⟨1, 5⟩, ⟨2, 1⟩, ⟨3, 1⟩]⟩
        ⟨"c", 0, 1, none, some 1⟩).1.map Prod.snd =
      some (.ok [⟨2, 1⟩, ⟨2, 1⟩, ⟨3, 1⟩])) ∧
    ((PullLogsOperator.run specLogRead 6 ⟨[⟨1, 5⟩, ⟨2, 1⟩, ⟨3, 1⟩]⟩
        ⟨"c", 0, 3, none, some 1⟩).1.map Prod.snd =
      some (.ok [⟨2, 1⟩, ⟨3, 1⟩])) ∧
    ((PullLogsOperator.run specLogRead 6 ⟨[⟨1, 5⟩, ⟨2, 1⟩, ⟨3, 1⟩]⟩
        ⟨"c", 0, 1, none, some 1⟩).1.map Prod.snd ≠
      (PullLogsOperator.run specLogRead 6 ⟨[⟨1, 5⟩, ⟨2, 1⟩, ⟨3, 1⟩]⟩
        ⟨"c", 0, 3, none, some 1⟩).1.map Prod.snd) := by decide

/-- C5 as amended: when the entries satisfying the time bound form a prefix
of the (position-addressed) log — timestamps monotone along the log, the
case §9 of the spec does not flag — the operator returns, for every positive
batch size, exactly the entries the source reports with `log_id_ts ≤ T`;
in particular two runs differing only in `batch_size` agree. -/
theorem pullLogs_end_ts_monotone (cid : String) (entries : List LogRecord)
    (off0 T B1 B2 : Int) (F fuel : Nat) (hB1 : 0 < B1) (hB2 : 0 < B2)
    (hcons : consecIds off0 entries = true)
    (hF : takeSat (tsWithin (some T)) F entries = true)
    (hfuel : entries.length + 2 ≤ fuel) :
    ∃ tr1 tr2,
      (PullLogsOperator.run specLogRead fuel ⟨entries⟩
          ⟨cid, off0, B1, none, some T⟩).1 =
        some (tr1, .ok (entries.filter (tsWithin (some T)))) ∧
      (PullLogsOperator.run specLogRead fuel ⟨entries⟩
          ⟨cid, off0, B2, none, some T⟩).1 =
        some (tr2, .ok (entries.filter (tsWithin (some T)))) := by
  have key : ∀ B : Int, 0 < B → ∃ tr,
      (PullLogsOperator.run specLogRead fuel ⟨entries⟩
          ⟨cid, off0, B, none, some T⟩).1 =
        some (tr, .ok (entries.filter (tsWithin (some T)))) := by
    intro B hB
    have hb : 0 < B.toNat := by omega
    have hBb : B = (B.toNat : Int) := (Int.toNat_of_nonneg (le_of_lt hB)).symm
    have hread := specLogRead_drop cid B hcons hF
    have hlen' : (entries.take F).length ≤ entries.length := by
      rw [List.length_take]; omega
    have hfuel0 : ceilDiv ((entries.take F).length - 0) B.toNat + 1 ≤ fuel := by
      have := ceilDiv_le_self (R := (entries.take F).length - 0) hb
      omega
    obtain ⟨tr, heq, -, -, -⟩ :=
      runLoop_pages hb hBb hread fuel 0 0 [] hfuel0
    simp only [Nat.cast_zero, add_zero, List.drop_zero, List.nil_append] at heq
    rw [← takeSat_filter hF] at heq
    have hrun := run_eq_of_runLoop specLogRead fuel ⟨entries⟩
      ⟨cid, off0, B, none, some T⟩ heq
    refine ⟨tr, ?_⟩
    rw [hrun]
    rfl
  obtain ⟨tr1, h1⟩ := key B1 hB1
  obtain ⟨tr2, h2⟩ := key B2 hB2
  exact ⟨tr1, tr2, h1, h2⟩

/-- C5 amended witness: the spec's own test log (timestamps `1, 2`,
monotone), `T = 1`, batch sizes `1` and `100`: both runs return exactly the
single entry with `log_id_ts ≤ 1`. -/
theorem pullLogs_end_ts_monotone_witness :
    ∃ tr1 tr2,
      (PullLogsOperator.run specLogRead 4 ⟨[⟨1, 1⟩, ⟨2, 2⟩]⟩
          ⟨"c", 0, 1, none, some 1⟩).1 =
        some (tr1, .ok (([⟨1, 1⟩, ⟨2, 2⟩] : List LogRecord).filter
          (tsWithin (some 1)))) ∧
      (PullLogsOperator.run specLogRead 4 ⟨[⟨1, 1⟩, ⟨2, 2⟩]⟩
          ⟨"c", 0, 100, none, some 1⟩).1 =
        some (tr2, .ok (([⟨1, 1⟩, ⟨2, 2⟩] : List LogRecord).filter
          (tsWithin (some 1)))) :=
  pullLogs_end_ts_monotone "c" [⟨1, 1⟩, ⟨2, 2⟩] 0 1 1 100 1 4 (by decide)
    (by decide) (by decide) (by decide) (by decide)

/-- C6: in every invocation, for every log client, consecutive read calls of
the trace are issued at offsets exactly `batch_size` apart: after a
non-empty read the next offset is the previous one plus `batch_size`,
never the previous one plus the number of entries actually received. -/
theorem pullLogs_offset_stride {σ α ε : Type} (read : ReadFn σ α ε)
    (fuel : Nat) (op : PullLogsOperator σ) (input : PullLogsInput)
    (tr : List (Int × RResult (List α) ε)) (out : RResult (List α) ε)
    (hrun : (PullLogsOperator.run read fuel op input).1 = some (tr, out)) :
    offsetStep input.batch_size tr = true := by
  obtain ⟨out0, hloop, -⟩ := runLoop_of_run hrun
  exact (runLoop_offsetStep read input.collection_id input.batch_size
    input.num_records input.end_timestamp fuel op.client input.offset 0 []
    tr out0 hloop).1

/-- C6 witness: batches of a single entry with `batch_size = 5`: the offsets
passed to `read` are `0, 5, 10` — advanced by the batch size, not by the one
entry actually received. -/
theorem pullLogs_offset_stride_witness :
    offsetStep (5 : Int)
      ([(0, RResult.ok [⟨1, 0⟩]), (5, .ok [⟨6, 0⟩]), (10, .ok [])] :
        List (Int × RResult (List LogRecord) PullLogsError)) = true :=
  pullLogs_offset_stride singleEntryBatches 4 ⟨()⟩ ⟨"c", 0, 5, none, none⟩
    [(0, .ok [⟨1, 0⟩]), (5, .ok [⟨6, 0⟩]), (10, .ok [])] (.ok [⟨1, 0⟩, ⟨6, 0⟩])
    (by decide)

/-- C7 counterexample: a contract-abiding log with ids `12, 15` read with
`batch_size = 10` from offset `0`: every single read is ascending by
`log_id`, yet the returned sequence is `[12, 15, 12, 15]` — not ascending.
Per-read order alone does not make the concatenated output ascending. -/
theorem pullLogs_order_cex :
    (PullLogsOperator.run specLogRead 5 ⟨[⟨12, 0⟩, ⟨15, 0⟩]⟩
        ⟨"c", 0, 10, none, none⟩).1 =
      some ([(0, .ok [⟨12, 0⟩, ⟨15, 0⟩]), (10, .ok [⟨12, 0⟩, ⟨15, 0⟩]),
          (20, .ok [])],
        .ok [⟨12, 0⟩, ⟨15, 0⟩, ⟨12, 0⟩, ⟨15, 0⟩]) ∧
    readsAsc ([(0, RResult.ok [⟨12, 0⟩, ⟨15, 0⟩]),
        (10, .ok [⟨12, 0⟩, ⟨15, 0⟩]), (20, .ok [])] :
      List (Int × RResult (List LogRecord) PullLogsError)) = true ∧
    ascChain [⟨12, 0⟩, ⟨15, 0⟩, ⟨12, 0⟩, ⟨15, 0⟩] = false := by decide

/-- C7 as amended: for every successful invocation against any log client,
the returned sequence is a prefix of the concatenation of the read results
in call order (entries of an earlier read precede entries of a later read,
and entries within one read keep the order the client returned them in);
and if that whole concatenation is ascending by `log_id` — not merely each
read taken alone, as the counterexample forces — then so is the output. -/
theorem pullLogs_concat_order {σ ε : Type} (read : ReadFn σ LogRecord ε)
    (fuel : Nat) (op : PullLogsOperator σ) (input : PullLogsInput)
    (tr : List (Int × RResult (List LogRecord) ε)) (lout : List LogRecord)
    (hrun : (PullLogsOperator.run read fuel op input).1 = some (tr, .ok lout)) :
    (∃ rest, okLogs tr = lout ++ rest) ∧
    (ascChain (okLogs tr) = true → ascChain lout = true) := by
  obtain ⟨out0, hloop, hfin⟩ := runLoop_of_run hrun
  cases out0 with
  | err e => simp [finalize] at hfin
  | ok l0 =>
    have hl0 : l0 = okLogs tr := by
      have := runLoop_okLogs read input.collection_id input.batch_size
        input.num_records input.end_timestamp fuel op.client input.offset 0 []
        tr l0 hloop
      simpa using this
    have hfin' : lout = truncateTo input.num_records l0 := by
      simp only [finalize, RResult.ok.injEq] at hfin
      exact hfin
    obtain ⟨rest, hrest⟩ := truncateTo_append input.num_records l0
    constructor
    · exact ⟨rest, by rw [← hl0, hrest, ← hfin']⟩
    · intro hasc
      rw [hfin']
      apply ascChain_append (r := rest)
      rw [← hrest, hl0]
      exact hasc

/-- C7 amended witness: consecutive log, `batch_size = 1`: the output
`[1, 2]` is a prefix of the concatenated (ascending) read results and is
itself ascending. -/
theorem pullLogs_concat_order_witness :
    (∃ rest, okLogs ([(0, RResult.ok [⟨1, 1⟩]), (1, .ok [⟨2, 2⟩]),
        (2, .ok [])] : List (Int × RResult (List LogRecord) PullLogsError)) =
      [⟨1, 1⟩, ⟨2, 2⟩] ++ rest) ∧
    (ascChain (okLogs ([(0, RResult.ok [⟨1, 1⟩]), (1, .ok [⟨2, 2⟩]),
        (2, .ok [])] : List (Int × RResult (List LogRecord) PullLogsError))) =
          true →
      ascChain [⟨1, 1⟩, ⟨2, 2⟩] = true) :=
  pullLogs_concat_order specLogRead 4 ⟨[⟨1, 1⟩, ⟨2, 2⟩]⟩ ⟨"c", 0, 1, none, none⟩
    [(0, .ok [⟨1, 1⟩]), (1, .ok [⟨2, 2⟩]), (2, .ok [])] [⟨1, 1⟩, ⟨2, 2⟩]
    (by decide)

/-- C8: `run` takes the operator by shared reference and works on a clone of
its client (line 96), so an invocation leaves the operator exactly as it
was, and re-invoking with the identical input (the client being a pure state
machine, hence deterministic and unchanged) produces the identical result —
the same output sequence, or the same error, and the same read trace. -/
theorem pullLogs_deterministic {σ α ε : Type} (read : ReadFn σ α ε)
    (fuel : Nat) (op : PullLogsOperator σ) (input : PullLogsInput) :
    (PullLogsOperator.run (α := α) read fuel op input).2 = op ∧
    PullLogsOperator.run read fuel
        ((PullLogsOperator.run (α := α) read fuel op input).2) input =
      PullLogsOperator.run read fuel op input := by
  have h2 : (PullLogsOperator.run (α := α) read fuel op input).2 = op := by
    simp only [PullLogsOperator.run]
    cases hrec : runLoop read input.collection_id input.batch_size
        input.num_records input.end_timestamp fuel op.client input.offset 0 [] with
    | none => rfl
    | some p => obtain ⟨tr, out⟩ := p; rfl
  exact ⟨h2, by rw [h2]⟩

/-- C9: a negative cap `num_records = some k` (`-2^31 ≤ k < 0`) behaves
exactly like no cap at all: `k as usize` is at least `2^63`, the cap check
can never fire and the truncation never triggers within any feasible number
of iterations (`fuel * batch_size < 2^63` — reading that many entries is
unreachable for a 64-bit process), so the two runs are equal in full:
same trace, same output, entries returned up to exhaustion. -/
theorem pullLogs_negative_cap_ignored (cid : String)
    (entries : List LogRecord) (off0 B k : Int) (ts : Option Int)
    (fuel : Nat) (hk : k < 0) (hk32 : -(2 ^ 31) ≤ k)
    (hfuel : fuel * B.toNat < 2 ^ 63) :
    PullLogsOperator.run specLogRead fuel ⟨entries⟩
        ⟨cid, off0, B, some k, ts⟩ =
      PullLogsOperator.run specLogRead fuel ⟨entries⟩
        ⟨cid, off0, B, none, ts⟩ := by
  have hK := usizeOfI32_neg hk hk32
  have hbound : ∀ (s : List LogRecord) (o : Int) (logs : List LogRecord)
      (s' : List LogRecord),
      specLogRead s cid o B ts = (.ok logs, s') → logs.length ≤ B.toNat := by
    intro s o logs s' h
    simp only [specLogRead, Prod.mk.injEq, RResult.ok.injEq] at h
    rw [← h.1]
    exact List.length_take_le _ _
  have hloop := runLoop_cap_irrelevant (k := k) hbound fuel entries off0 0 []
    (by omega)
  simp only [PullLogsOperator.run]
  cases hrec : runLoop specLogRead cid B none ts fuel entries off0 0 [] with
  | none => rw [hloop, hrec]
  | some p =>
    obtain ⟨tr, out⟩ := p
    rw [hloop, hrec]
    cases out with
    | err e => rfl
    | ok lres =>
      have hlen := runLoop_len_bound hbound fuel entries off0 0 [] tr lres hrec
      have htr : truncateTo (some k) lres = lres := by
        simp only [truncateTo]
        rw [if_neg]
        simp only [List.length_nil, Nat.zero_add] at hlen
        omega
      simp only [finalize]
      rw [htr]
      rfl

/-- C9 witness: cap `-1`, two entries: the run equals the uncapped run, and
both entries come back untruncated. -/
theorem pullLogs_negative_cap_ignored_witness :
    (PullLogsOperator.run specLogRead 4 ⟨[⟨1, 1⟩, ⟨2, 2⟩]⟩
        ⟨"c", 0, 1, some (-1), none⟩ =
      PullLogsOperator.run specLogRead 4 ⟨[⟨1, 1⟩, ⟨2, 2⟩]⟩
        ⟨"c", 0, 1, none, none⟩) ∧
    (PullLogsOperator.run specLogRead 4 ⟨[⟨1, 1⟩, ⟨2, 2⟩]⟩
        ⟨"c", 0, 1, some (-1), none⟩).1.map Prod.snd =
      some (.ok [⟨1, 1⟩, ⟨2, 2⟩]) :=
  ⟨pullLogs_negative_cap_ignored "c" [⟨1, 1⟩, ⟨2, 2⟩] 0 1 (-1) none 4
      (by decide) (by decide) (by decide),
    by decide⟩

/-- C10: for every log client that reports an empty batch at every offset
`≥ M` (a log holding finitely many entries) and every input with
`batch_size > 0`, the loop terminates: `(M - offset)⁺ + 1` iterations of
fuel already suffice, because the offset strictly grows by `batch_size` on
every non-empty read (failed reads and the cap also stop the loop). -/
theorem pullLogs_terminates {σ α ε : Type} (read : ReadFn σ α ε)
    (op : PullLogsOperator σ) (input : PullLogsInput) (M : Int)
    (hB : 0 < input.batch_size)
    (hM : ∀ (s : σ) (o : Int), M ≤ o →
      (read s input.collection_id o input.batch_size input.end_timestamp).1 =
        .ok ([] : List α)) :
    (PullLogsOperator.run read ((M - input.offset).toNat + 1) op input).1 ≠
      none := by
  have harith : M ≤ input.offset +
      ((M - input.offset).toNat : Int) * input.batch_size := by
    have h1 : M - input.offset ≤ ((M - input.offset).toNat : Int) :=
      Int.self_le_toNat _
    have h2 : ((M - input.offset).toNat : Int) ≤
        ((M - input.offset).toNat : Int) * input.batch_size := by
      apply le_mul_of_one_le_right
      · exact Int.natCast_nonneg _
      · omega
    omega
  have hne := @runLoop_ne_none σ α ε read input.collection_id
    input.batch_size input.num_records input.end_timestamp M hM
    ((M - input.offset).toNat) op.client input.offset 0 [] harith
  simp only [PullLogsOperator.run]
  cases hrec : runLoop read input.collection_id input.batch_size
      input.num_records input.end_timestamp ((M - input.offset).toNat + 1)
      op.client input.offset 0 [] with
  | none => exact absurd hrec hne
  | some p =>
    obtain ⟨tr, out⟩ := p
    simp

/-- C10 witness: the single-entry-batch client is empty from offset `10` on;
with `batch_size = 5` and starting offset `0` the run completes within the
computed fuel. -/
theorem pullLogs_terminates_witness :
    (0 : Int) < 5 ∧
    (PullLogsOperator.run singleEntryBatches
        (((10 : Int) - 0).toNat + 1) ⟨()⟩ ⟨"c", 0, 5, none, none⟩).1 ≠
      none :=
  ⟨by decide,
    pullLogs_terminates singleEntryBatches ⟨()⟩ ⟨"c", 0, 5, none, none⟩ 10
      (by decide)
      (by
        intro s o h
        simp only [singleEntryBatches]
        rw [if_neg (by omega)])⟩
